import Mathlib

/-!
Shallow embedding of the constrained-clustering pipeline (src/main.py).

Sample indices, labels and constraint kinds are natural numbers; similarity
values are integers.  Numpy arrays of labels become Lean lists; the mutable
similarity matrix becomes a function Nat -> Nat -> Int updated by function
override, mirroring each numpy write in sequence.  The two external services
(the dendrogram from sklearn AgglomerativeClustering, and the nearest-neighbor
lists) enter as explicit inputs, as the spec treats them as collaborators.
-/

/-- Error kinds named by the spec (section 7).  Modelled from the spec: the
source defines none of these classes; this type exists only to state the
spec's construction-time validation contract for comparison. -/
inductive PipelineError where
  | emptyConstraintSet
  | invalidConstraint
  deriving DecidableEq, Repr

/-- np.unique over naturals: the ascending sorted list of distinct values. -/
def npUnique (l : List Nat) : List Nat :=
  (List.range (l.foldr max 0 + 1)).filter (fun x => decide (x ∈ l))

/-- translate_to_counting_numbers (src/main.py lines 33-44): each entry is
replaced by the sum over j of [a_i = unique_j] * j, which is the index of its
value in the sorted array of unique elements. -/
def translate_to_counting_numbers (a : List Nat) : List Nat :=
  let uniqueElements := npUnique a
  a.map (fun x => (uniqueElements.enum.map (fun p => if x = p.2 then p.1 else 0)).sum)

/-- ismember (lines 19-30): elementwise membership of a in b. -/
def ismember (a b : List Nat) : List Bool :=
  a.map (fun x => decide (x ∈ b))

/-- The state built by ConstrainedClustering.__init__. -/
structure CCStore where
  ML : List (Nat × Nat)
  CL : List (Nat × Nat)
  constrainedSamps : List Nat
  deriving DecidableEq, Repr

/-- constraints_by_value (lines 109-111): rows whose third column equals
consVal, first two columns kept. -/
def constraints_by_value (constraintMat : List (Nat × Nat × Nat)) (consVal : Nat) :
    List (Nat × Nat) :=
  (constraintMat.filter (fun r => decide (r.2.2 = consVal))).map (fun r => (r.1, r.2.1))

/-- ConstrainedClustering.__init__ (lines 99-107): symmetrized ML and CL pair
lists, and np.unique over the reshaped whole table - all three columns. -/
def ccInit (constraintMat : List (Nat × Nat × Nat)) : CCStore :=
  let ml := constraints_by_value constraintMat 1
  let cl := constraints_by_value constraintMat 0
  { ML := ml ++ ml.map (fun p => (p.2, p.1))
    CL := cl ++ cl.map (fun p => (p.2, p.1))
    constrainedSamps :=
      npUnique (constraintMat.foldr (fun r acc => r.1 :: r.2.1 :: r.2.2 :: acc) []) }

/-- other_sample_in_pair (lines 116-124): second endpoints of the rows of the
chosen constraint block whose first endpoint lies in the group. -/
def other_sample_in_pair (store : CCStore) (group : List Nat) (consVal : Nat) :
    List Nat :=
  let constraintBlock := if consVal = 0 then store.CL else store.ML
  (constraintBlock.filter (fun p => decide (p.1 ∈ group))).map (fun p => p.2)

/-- is_CL_violated (lines 126-129). -/
def is_CL_violated (store : CCStore) (group : List Nat) : Bool :=
  let otherCLsamp := other_sample_in_pair store group 0
  group.any (fun s => decide (s ∈ otherCLsamp))

/-- number_of_constraints (lines 131-134): the number of entries of group2
that occur among the second endpoints found from group1. -/
def number_of_constraints (store : CCStore) (group1 group2 : List Nat)
    (consVal : Nat) : Nat :=
  let otherSamp1 := other_sample_in_pair store group1 consVal
  group2.countP (fun s => decide (s ∈ otherSamp1))

/-- The initial clusMem state of linkage_to_merges: one singleton per sample. -/
def singletonClusters (N : Nat) : List (List Nat) :=
  (List.range N).map (fun x => [x])

/-- linkage_to_merges (lines 394-408): rebuild the member list of every
virtual dendrogram node and yield, in order, the member groups of each merge. -/
def linkage_to_merges (N : Nat) (children : List (Nat × Nat)) :
    List (List Nat × List Nat) :=
  (children.foldl
    (fun acc ch =>
      let g1 := acc.1.getD ch.1 []
      let g2 := acc.1.getD ch.2 []
      (acc.1 ++ [g1 ++ g2], acc.2 ++ [(g1, g2)]))
    (singletonClusters N, [])).2

/-- One merge of agglomerate_constrained_samples (lines 382-388): when the
union of the two groups violates no CL constraint, every sample of group1
receives the current label of group2's first sample. -/
def agglomStep (store : CCStore) (labels : Nat → Nat) (m : List Nat × List Nat) :
    Nat → Nat :=
  if is_CL_violated store (m.1 ++ m.2) then labels
  else fun x => if x ∈ m.1 then labels (m.2.headD 0) else labels x

/-- bigLabelSet after all dendrogram merges, restricted to constrainedSamps
(line 390). -/
def agglomRestricted (store : CCStore) (N : Nat) (children : List (Nat × Nat)) :
    List Nat :=
  let final := (linkage_to_merges N children).foldl (agglomStep store) (fun x => x)
  store.constrainedSamps.map final

/-- agglomerate_constrained_samples (lines 371-392). -/
def agglomerate_constrained_samples (store : CCStore) (N : Nat)
    (children : List (Nat × Nat)) : List Nat :=
  translate_to_counting_numbers (agglomRestricted store N children)

/-- constrainedSamps masked by labelSet == i (line 232). -/
def groupOfLabel (store : CCStore) (labelSet : List Nat) (i : Nat) : List Nat :=
  ((store.constrainedSamps.zip labelSet).filter (fun p => decide (p.2 = i))).map
    (fun p => p.1)

/-- The similarity matrix built by merge_nodes (lines 229-243): for i < ii the
net value Nml - Ncl is written to both (i,ii) and (ii,i); the diagonal stays
at its zero initialization. -/
def simMatOf (store : CCStore) (labelSet : List Nat) : Nat → Nat → Int :=
  fun i j =>
    if i = j then 0
    else
      (number_of_constraints store (groupOfLabel store labelSet (min i j))
          (groupOfLabel store labelSet (max i j)) 1 : Int) -
        (number_of_constraints store (groupOfLabel store labelSet (min i j))
          (groupOfLabel store labelSet (max i j)) 0 : Int)

/-- complete_matrix (lines 334-360).  neigh i models indices[i, 1:(k+1)] from
the external nearest-neighbor service.  Iteration i writes 1 into row i and
column i at the neighbor positions whose entry in the original matrix is 0;
all conditions read the original simMat, as in the source. -/
def complete_matrix (M : Nat) (neigh : Nat → List Nat)
    (simMat : Nat → Nat → Int) : Nat → Nat → Int :=
  (List.range M).foldl
    (fun acc i => fun a b =>
      if a = i ∧ b ∈ neigh i ∧ simMat i b = 0 then 1
      else if b = i ∧ a ∈ neigh i ∧ simMat i a = 0 then 1
      else acc a b)
    simMat

/-- The similarity-matrix part of merge_nodes (lines 223-248): the node count
is the number of distinct working labels, and completion runs only when it
exceeds Nneigh*2 = 4. -/
def merge_nodes_sim (store : CCStore) (labelSet : List Nat)
    (neigh : Nat → List Nat) : Nat → Nat → Int :=
  let M := (npUnique labelSet).length
  let simMat := simMatOf store labelSet
  if 2 * 2 < M then complete_matrix M neigh simMat else simMat

/-- np.argmax over the M x M matrix in row-major order, returning the first
position attaining the maximum (np.unravel_index of the flat argmax). -/
def argmax2 (M : Nat) (sim : Nat → Nat → Int) : Nat × Nat :=
  (List.range (M * M)).foldl
    (fun best k =>
      if sim best.1 best.2 < sim (k / M) (k % M) then (k / M, k % M) else best)
    (0, 0)

/-- np.unique(newLabels).size over the first M indices. -/
def countDistinct (M : Nat) (labels : Nat → Nat) : Nat :=
  ((Finset.range M).image labels).card

/-- newLabels[newLabels == newLabels[c]] = newLabels[r] (line 263). -/
def relabelMerge (labels : Nat → Nat) (r c : Nat) : Nat → Nat :=
  fun i => if labels i = labels c then labels r else labels i

/-- The five matrix writes of one accepted merge (lines 264-268), in source
order: row c += row r; column c = row c; row r = -1; column r = -1;
entry (c,c) = 0. -/
def gcStep (sim : Nat → Nat → Int) (r c : Nat) : Nat → Nat → Int :=
  let s1 : Nat → Nat → Int := fun i j => if i = c then sim c j + sim r j else sim i j
  let s2 : Nat → Nat → Int := fun i j => if j = c then s1 c i else s1 i j
  let s3 : Nat → Nat → Int := fun i j => if i = r then -1 else s2 i j
  let s4 : Nat → Nat → Int := fun i j => if j = r then -1 else s3 i j
  fun i j => if i = c ∧ j = c then 0 else s4 i j

/-- The break test of lines 271-274: when a target cluster count is set, stop
once the number of distinct labels has reached it; this runs after a merge. -/
def kCheck (K : Option Nat) (M : Nat) (labels : Nat → Nat) : Bool :=
  match K with
  | some k => decide (countDistinct M labels ≤ k)
  | none => false

/-- The while loop of graph_cut_approx (lines 258-274) with explicit fuel.
Returns the final newLabels together with the number of accepted merges, or
none if the fuel runs out before the loop breaks.  The target-count check
runs after a merge, exactly as in the source. -/
def gcRun (K : Option Nat) (M : Nat) :
    Nat → (Nat → Nat) → (Nat → Nat → Int) → Option ((Nat → Nat) × Nat)
  | 0, _, _ => none
  | fuel + 1, labels, sim =>
    if 0 < sim (argmax2 M sim).1 (argmax2 M sim).2 then
      if kCheck K M (relabelMerge labels (argmax2 M sim).1 (argmax2 M sim).2) then
        some (relabelMerge labels (argmax2 M sim).1 (argmax2 M sim).2, 1)
      else
        (gcRun K M fuel
          (relabelMerge labels (argmax2 M sim).1 (argmax2 M sim).2)
          (gcStep sim (argmax2 M sim).1 (argmax2 M sim).2)).map
          (fun p => (p.1, p.2 + 1))
    else some (labels, 0)

/-- graph_cut_approx (lines 250-275), run with fuel M + 1; the termination
theorem shows this fuel is never exhausted. -/
def graph_cut_approx (K : Option Nat) (M : Nat) (sim : Nat → Nat → Int) :
    Option ((Nat → Nat) × Nat) :=
  gcRun K M (M + 1) (fun i => i) sim

/-- translate_labels (lines 362-369): sequential in-place remapping, one pass
per sorted unique original label, each pass matching on the current array. -/
def translate_labels (labelSet : List Nat) (newLabels : Nat → Nat) : List Nat :=
  (npUnique labelSet).foldl
    (fun cur lab => cur.map (fun x => if x = lab then newLabels lab else x))
    labelSet

/-- fit_constrained (lines 196-212) restricted to the label pipeline; the
dendrogram children and the neighbor lists stand for the external services. -/
def fit_constrained (store : CCStore) (N : Nat) (children : List (Nat × Nat))
    (K : Option Nat) (neigh : Nat → List Nat) : Option (List Nat) :=
  let labelSet := agglomerate_constrained_samples store N children
  let M := (npUnique labelSet).length
  let sim := merge_nodes_sim store labelSet neigh
  match graph_cut_approx K M sim with
  | some p => some (translate_labels labelSet p.1)
  | none => none

/-- Modelled from the spec (section 7): construction is required to fail fast
with EmptyConstraintSetError when no constraints are supplied.  The source
constructor performs no such check; this definition follows the spec's words
for comparison with ccInit. -/
def specInit (constraintMat : List (Nat × Nat × Nat)) : Except PipelineError CCStore :=
  if constraintMat = [] then Except.error PipelineError.emptyConstraintSet
  else Except.ok (ccInit constraintMat)

/-- Modelled from the spec (section 4.2): the number of kind-consVal rows of
the raw table with one endpoint in group1 and the other in group2. -/
def specEdgeCount (constraintMat : List (Nat × Nat × Nat)) (group1 group2 : List Nat)
    (consVal : Nat) : Nat :=
  constraintMat.countP (fun r =>
    decide (r.2.2 = consVal ∧
      ((r.1 ∈ group1 ∧ r.2.1 ∈ group2) ∨ (r.1 ∈ group2 ∧ r.2.1 ∈ group1))))

/-- Modelled from the spec (section 4.3): the distinct values of a in order of
first appearance. -/
def firstAppearanceOrder (a : List Nat) : List Nat :=
  a.foldl (fun acc x => if x ∈ acc then acc else acc ++ [x]) []

/-- Modelled from the spec (section 4.3): renumbering where the order of first
appearance of each old label defines its new number. -/
def firstAppearanceRenumber (a : List Nat) : List Nat :=
  a.map (fun x => (firstAppearanceOrder a).findIdx (fun y => y == x))

/-- A 2 x 2 symmetric zero-diagonal similarity matrix with one positive pair. -/
def sim2x2 : Nat → Nat → Int :=
  fun i j => if i < 2 ∧ j < 2 ∧ i ≠ j then 1 else 0

example : npUnique [5, 1, 3, 5] = [1, 3, 5] := by decide

example : translate_to_counting_numbers [5, 1, 3, 5] = [2, 0, 1, 2] := by decide

example : (ccInit [(2, 3, 0)]).constrainedSamps = [0, 2, 3] := by decide

/-! ### Counterexamples and directly decidable claim theorems -/

/-- Claim C4 (code bug): constrainedSamps is documented as the distinct sample
indices of the first two columns, but ccInit takes np.unique over the reshaped
whole table, so for the single row (2, 3, CL) the kind value 0 appears in
constrainedSamps although it is no sample index of any constraint. -/
theorem C4_constrainedSamps_includes_kind_column :
    (ccInit [(2, 3, 0)]).constrainedSamps = [0, 2, 3] ∧
      (ccInit [(2, 3, 0)]).constrainedSamps ≠ [2, 3] := by decide

/-- Claim C9 (counterexample): on the empty constraint table the source
constructor returns an ordinary store; it does not fail with
EmptyConstraintSetError as the spec-modelled constructor specInit demands. -/
theorem C9_counterexample :
    specInit [] = Except.error PipelineError.emptyConstraintSet ∧
      specInit [] ≠ Except.ok (ccInit []) := by
  refine ⟨rfl, fun h => ?_⟩
  rw [show specInit [] = Except.error PipelineError.emptyConstraintSet from rfl] at h
  exact Except.noConfusion h

/-- Claim C9 (amended): supplying zero constraints does not fail at
construction; ccInit yields the store with empty ML, CL and constrainedSamps. -/
theorem C9_empty_table_constructs_empty_store :
    ccInit [] = { ML := [], CL := [], constrainedSamps := [] } := by rfl

/-- Claim C3 (counterexample): with ML edges (0,2) and (1,2),
number_of_constraints([0,1], [2], ML) returns 1 although two ML edges join the
two groups, and swapping the groups returns 2, so the count is neither the
edge count nor symmetric. -/
theorem C3_counterexample :
    number_of_constraints (ccInit [(0, 2, 1), (1, 2, 1)]) [0, 1] [2] 1 = 1 ∧
      specEdgeCount [(0, 2, 1), (1, 2, 1)] [0, 1] [2] 1 = 2 ∧
      number_of_constraints (ccInit [(0, 2, 1), (1, 2, 1)]) [2] [0, 1] 1 = 2 := by
  decide

/-- Claim C5 (counterexample): with five nodes (M = 5, which is at most
2k+2 = 6) the source still applies graph completion, because its guard is
M > Nneigh*2 = 4; the similarity matrix does not reach the cut step unchanged. -/
theorem C5_counterexample :
    (npUnique [0, 1, 2, 3, 4]).length = 5 ∧
      simMatOf (ccInit [(1, 2, 0), (3, 4, 0)]) [0, 1, 2, 3, 4] 0 1 = 0 ∧
      merge_nodes_sim (ccInit [(1, 2, 0), (3, 4, 0)]) [0, 1, 2, 3, 4]
        (fun i => [(i + 1) % 5, (i + 2) % 5]) 0 1 = 1 := by decide

/-- Claim C6 (counterexample): a six-sample run whose restricted label array is
[5, 1, 3, 5].  The pipeline renumbers it to [2, 0, 1, 2], the rank of each old
label in ascending sorted order, not to the first-appearance numbering
[0, 1, 2, 0]. -/
theorem C6_counterexample :
    agglomRestricted (ccInit [(0, 5, 1), (1, 3, 0)]) 6
        [(0, 5), (1, 3), (2, 4), (6, 7), (8, 9)] = [5, 1, 3, 5] ∧
      agglomerate_constrained_samples (ccInit [(0, 5, 1), (1, 3, 0)]) 6
        [(0, 5), (1, 3), (2, 4), (6, 7), (8, 9)] = [2, 0, 1, 2] ∧
      firstAppearanceRenumber [5, 1, 3, 5] = [0, 1, 2, 0] ∧
      ([2, 0, 1, 2] : List Nat) ≠ [0, 1, 2, 0] := by decide

/-- Claim C2 (counterexample): M = 2 surviving nodes, target K = 3 > M, and one
positive pair.  The cut performs one merge (not zero) before the target-count
check fires, and the returned relabeling maps node 1 to 0, not the identity. -/
theorem C2_counterexample :
    (∀ i < 2, ∀ j < 2, sim2x2 i j = sim2x2 j i ∧ sim2x2 i i = 0) ∧
      (graph_cut_approx (some 3) 2 sim2x2).map (fun p => (p.1 0, p.1 1, p.2)) =
        some (0, 0, 1) := by decide

/-- Claim C8 (counterexample): on the symmetric zero-diagonal matrix sim2x2 the
first loop iteration selects (r, c) = (0, 1) and merges; after that merge step
the diagonal entry (0, 0) equals -1, not 0. -/
theorem C8_counterexample :
    argmax2 2 sim2x2 = (0, 1) ∧ 0 < sim2x2 0 1 ∧
      gcStep sim2x2 0 1 0 0 = -1 := by decide

/-- Claim C1 (counterexample): samples 0,1 and 2,3 agglomerate into two nodes
joined by two ML edges and one CL edge, so the greedy cut merges them (net
similarity +1); the final labelSet is [0, 0, 0, 0] and the CL pair (0, 2)
receives one and the same label at positions 0 and 2 of constrainedSamps. -/
theorem C1_counterexample :
    fit_constrained (ccInit [(0, 2, 0), (0, 3, 1), (1, 2, 1)]) 4
        [(0, 1), (2, 3), (4, 5)] none (fun _ => []) = some [0, 0, 0, 0] ∧
      (0, 2) ∈ (ccInit [(0, 2, 0), (0, 3, 1), (1, 2, 1)]).CL ∧
      (ccInit [(0, 2, 0), (0, 3, 1), (1, 2, 1)]).constrainedSamps = [0, 1, 2, 3] ∧
      ([0, 0, 0, 0] : List Nat).getD 0 9 = ([0, 0, 0, 0] : List Nat).getD 2 9 := by
  decide

/-! ### Helper lemmas -/

theorem if_one_or (p q : Prop) [Decidable p] [Decidable q] (x : Int) :
    (if p then (1 : Int) else if q then 1 else x) = if p ∨ q then 1 else x := by
  by_cases hp : p <;> by_cases hq : q <;> simp [hp, hq]

/-- Closed form of complete_matrix: an entry becomes 1 exactly when some
iteration writes it (all writes carry the value 1 and test the original
matrix), otherwise it keeps its original value. -/
theorem complete_matrix_eq (M : Nat) (neigh : Nat → List Nat)
    (sim : Nat → Nat → Int) (a b : Nat) :
    complete_matrix M neigh sim a b =
      if (a < M ∧ b ∈ neigh a ∧ sim a b = 0) ∨ (b < M ∧ a ∈ neigh b ∧ sim b a = 0)
      then 1 else sim a b := by
  induction M with
  | zero => simp [complete_matrix]
  | succ n ih =>
    unfold complete_matrix at ih ⊢
    rw [List.range_succ, List.foldl_append, List.foldl_cons, List.foldl_nil]
    show (if a = n ∧ b ∈ neigh n ∧ sim n b = 0 then (1 : Int)
      else if b = n ∧ a ∈ neigh n ∧ sim n a = 0 then 1
      else (List.range n).foldl _ sim a b) = _
    rw [if_one_or, ih, if_one_or]
    refine if_congr ?_ rfl rfl
    constructor
    · rintro ((⟨rfl, h⟩ | ⟨rfl, h⟩) | (⟨h1, h⟩ | ⟨h1, h⟩))
      · exact Or.inl ⟨Nat.lt_succ_self a, h⟩
      · exact Or.inr ⟨Nat.lt_succ_self b, h⟩
      · exact Or.inl ⟨Nat.lt_succ_of_lt h1, h⟩
      · exact Or.inr ⟨Nat.lt_succ_of_lt h1, h⟩
    · rintro (⟨h1, h⟩ | ⟨h1, h⟩)
      · rcases Nat.lt_succ_iff_lt_or_eq.mp h1 with h1 | rfl
        · exact Or.inr (Or.inl ⟨h1, h⟩)
        · exact Or.inl (Or.inl ⟨rfl, h⟩)
      · rcases Nat.lt_succ_iff_lt_or_eq.mp h1 with h1 | rfl
        · exact Or.inr (Or.inr ⟨h1, h⟩)
        · exact Or.inl (Or.inr ⟨rfl, h⟩)

/-- Closed form of the five sequential writes of gcStep. -/
theorem gcStep_eq (sim : Nat → Nat → Int) (r c i j : Nat) :
    gcStep sim r c i j =
      if i = c ∧ j = c then 0
      else if j = r then -1
      else if i = r then -1
      else if j = c then sim c i + sim r i
      else if i = c then sim c j + sim r j
      else sim i j := by
  simp only [gcStep]
  by_cases hic : i = c <;> by_cases hjc : j = c <;>
    by_cases hir : i = r <;> by_cases hjr : j = r <;>
      simp_all

theorem mem_other_sample_in_pair (store : CCStore) (group : List Nat)
    (consVal : Nat) (s : Nat) :
    s ∈ other_sample_in_pair store group consVal ↔
      ∃ p ∈ (if consVal = 0 then store.CL else store.ML),
        p.1 ∈ group ∧ p.2 = s := by
  simp only [other_sample_in_pair, List.mem_map, List.mem_filter,
    decide_eq_true_eq]
  constructor
  · rintro ⟨p, ⟨hp, hg⟩, hs⟩
    exact ⟨p, hp, hg, hs⟩
  · rintro ⟨p, hp, hg, hs⟩
    exact ⟨p, ⟨hp, hg⟩, hs⟩

/-- Claim C3 (amended): number_of_constraints(group1, group2, v) equals the
number of entries of group2 joined by at least one v-edge to some member of
group1 - it counts linked members of group2, not edges, and it need not be
symmetric in group1 and group2. -/
theorem C3_count_is_linked_members (store : CCStore) (group1 group2 : List Nat)
    (consVal : Nat) :
    number_of_constraints store group1 group2 consVal =
      group2.countP (fun s =>
        decide (∃ p ∈ (if consVal = 0 then store.CL else store.ML),
          p.1 ∈ group1 ∧ p.2 = s)) := by
  unfold number_of_constraints
  apply List.countP_congr
  intro s _
  simp only [decide_eq_true_eq, decide_eq_decide]
  exact mem_other_sample_in_pair store group1 consVal s

/-- Claim C5 (amended): graph completion is applied iff the node count M
exceeds 2k = 4 for the configured k = 2 (not 2k+2 = 6); for M at most 4 the
matrix reaches the cut step unchanged, and when completion is applied to a
symmetric matrix no nonzero entry is ever overwritten. -/
theorem C5_guard_and_no_overwrite (store : CCStore) (labelSet : List Nat)
    (neigh : Nat → List Nat) (M : Nat) (sim : Nat → Nat → Int) (a b : Nat)
    (hsym : ∀ i j, sim i j = sim j i) (hnz : sim a b ≠ 0) :
    ((npUnique labelSet).length ≤ 4 →
        merge_nodes_sim store labelSet neigh = simMatOf store labelSet) ∧
      (4 < (npUnique labelSet).length →
        merge_nodes_sim store labelSet neigh =
          complete_matrix (npUnique labelSet).length neigh
            (simMatOf store labelSet)) ∧
      complete_matrix M neigh sim a b = sim a b := by
  refine ⟨fun h => ?_, fun h => ?_, ?_⟩
  · unfold merge_nodes_sim
    rw [if_neg (by omega)]
  · unfold merge_nodes_sim
    rw [if_pos (by omega)]
  · rw [complete_matrix_eq]
    rw [if_neg]
    rintro (⟨_, _, h0⟩ | ⟨_, _, h0⟩)
    · exact hnz h0
    · exact hnz (hsym a b ▸ h0)

/-- Witness for C5_guard_and_no_overwrite at concrete inputs: one labelSet
with 2 distinct labels (below the guard), one with 5 (above it), and a
symmetric matrix with a nonzero entry that completion leaves in place. -/
theorem C5_guard_and_no_overwrite_witness :
    ((npUnique [0, 1]).length ≤ 4 →
        merge_nodes_sim (ccInit [(0, 1, 0)]) [0, 1] (fun _ => []) =
          simMatOf (ccInit [(0, 1, 0)]) [0, 1]) ∧
      (4 < (npUnique [0, 1]).length →
        merge_nodes_sim (ccInit [(0, 1, 0)]) [0, 1] (fun _ => []) =
          complete_matrix (npUnique [0, 1]).length (fun _ => [])
            (simMatOf (ccInit [(0, 1, 0)]) [0, 1])) ∧
      complete_matrix 5 (fun i => [(i + 1) % 5, (i + 2) % 5])
        (fun i j => if i = j then 0 else 1) 0 1 =
        (fun i j => if i = j then (0 : Int) else 1) 0 1 :=
  C5_guard_and_no_overwrite (ccInit [(0, 1, 0)]) [0, 1] (fun _ => []) 5
    (fun i j => if i = j then 0 else 1) 0 1
    (fun i j => by
      show (if i = j then (0 : Int) else 1) = if j = i then (0 : Int) else 1
      by_cases h : i = j
      · simp [h]
      · rw [if_neg h, if_neg (fun h2 => h h2.symm)])
    (by decide)

theorem sim2x2_symm : ∀ i j, sim2x2 i j = sim2x2 j i := by
  intro i j
  unfold sim2x2
  refine if_congr ?_ rfl rfl
  constructor
  · rintro ⟨a, b, cc⟩
    exact ⟨b, a, fun hh => cc hh.symm⟩
  · rintro ⟨a, b, cc⟩
    exact ⟨b, a, fun hh => cc hh.symm⟩

theorem neigh2_no_self : ∀ i : Nat, i ∉ [(i + 1) % 2] := by
  intro i h
  simp only [List.mem_singleton] at h
  omega

/-- Claim C8 (amended): the similarity matrix is symmetric at every stage, and
its diagonal is 0 after the build and after completion; after a merge step of
the cut the surviving node c has diagonal 0 and untouched nodes keep theirs,
but the invalidated node r has diagonal -1, not 0. -/
theorem C8_symmetry_and_diagonal (store : CCStore) (ls : List Nat)
    (M : Nat) (neigh : Nat → List Nat) (sim : Nat → Nat → Int) (r c : Nat)
    (hsym : ∀ i j, sim i j = sim j i) (hni : ∀ i, i ∉ neigh i) (hrc : r ≠ c) :
    (∀ i j, simMatOf store ls i j = simMatOf store ls j i) ∧
      (∀ i, simMatOf store ls i i = 0) ∧
      (∀ i j, complete_matrix M neigh sim i j = complete_matrix M neigh sim j i) ∧
      (∀ i, complete_matrix M neigh sim i i = sim i i) ∧
      (∀ i j, gcStep sim r c i j = gcStep sim r c j i) ∧
      gcStep sim r c c c = 0 ∧
      gcStep sim r c r r = -1 ∧
      (∀ j, j ≠ r → j ≠ c → gcStep sim r c j j = sim j j) := by
  refine ⟨?_, ?_, ?_, ?_, ?_, ?_, ?_, ?_⟩
  · intro i j
    unfold simMatOf
    by_cases h : i = j
    · simp [h]
    · rw [if_neg h, if_neg (Ne.symm h), min_comm, max_comm]
  · intro i
    simp [simMatOf]
  · intro i j
    rw [complete_matrix_eq, complete_matrix_eq]
    exact if_congr or_comm rfl (hsym i j)
  · intro i
    rw [complete_matrix_eq, if_neg]
    rintro (⟨_, hm, _⟩ | ⟨_, hm, _⟩) <;> exact hni i hm
  · intro i j
    rw [gcStep_eq, gcStep_eq]
    by_cases hic : i = c <;> by_cases hjc : j = c <;>
      by_cases hir : i = r <;> by_cases hjr : j = r <;>
        simp_all
  · simp [gcStep_eq]
  · rw [gcStep_eq, if_neg (fun h : r = c ∧ r = c => hrc h.1), if_pos rfl]
  · intro j hjr hjc
    rw [gcStep_eq, if_neg (fun h : j = c ∧ j = c => hjc h.1), if_neg hjr, if_neg hjr,
      if_neg hjc, if_neg hjc]

/-- Witness for C8_symmetry_and_diagonal: the two-node store and matrix of the
counterexample run, with neighbor lists that exclude self. -/
theorem C8_symmetry_and_diagonal_witness :
    (∀ i j, simMatOf (ccInit [(0, 1, 0)]) [0, 1] i j =
        simMatOf (ccInit [(0, 1, 0)]) [0, 1] j i) ∧
      (∀ i, simMatOf (ccInit [(0, 1, 0)]) [0, 1] i i = 0) ∧
      (∀ i j, complete_matrix 2 (fun i => [(i + 1) % 2]) sim2x2 i j =
        complete_matrix 2 (fun i => [(i + 1) % 2]) sim2x2 j i) ∧
      (∀ i, complete_matrix 2 (fun i => [(i + 1) % 2]) sim2x2 i i = sim2x2 i i) ∧
      (∀ i j, gcStep sim2x2 0 1 i j = gcStep sim2x2 0 1 j i) ∧
      gcStep sim2x2 0 1 1 1 = 0 ∧
      gcStep sim2x2 0 1 0 0 = -1 ∧
      (∀ j, j ≠ 0 → j ≠ 1 → gcStep sim2x2 0 1 j j = sim2x2 j j) :=
  C8_symmetry_and_diagonal (ccInit [(0, 1, 0)]) [0, 1] 2
    (fun i => [(i + 1) % 2]) sim2x2 0 1 sim2x2_symm
    neigh2_no_self (by decide)

/-- Claim C2 (amended): with a target count K greater than the node count M,
the cut performs at most one merge, not necessarily zero: when the selected
maximum entry is nonpositive it stops at once and returns the identity
relabeling with zero merges, but when some entry is positive it performs
exactly one merge before the after-merge target check stops it. -/
theorem C2_target_above_node_count (M k : Nat) (sim : Nat → Nat → Int)
    (hM : 1 ≤ M) (hk : M < k)
    (hsym : ∀ i j, sim i j = sim j i) (hdiag : ∀ i, sim i i = 0) :
    ∃ p, graph_cut_approx (some k) M sim = some p ∧ p.2 ≤ 1 ∧
      (sim (argmax2 M sim).1 (argmax2 M sim).2 ≤ 0 →
        p.2 = 0 ∧ ∀ i, p.1 i = i) := by
  unfold graph_cut_approx
  by_cases hpos : 0 < sim (argmax2 M sim).1 (argmax2 M sim).2
  · have hcd :
        countDistinct M
          (relabelMerge (fun i => i) (argmax2 M sim).1 (argmax2 M sim).2) ≤ k := by
      have h1 : countDistinct M
          (relabelMerge (fun i => i) (argmax2 M sim).1 (argmax2 M sim).2) ≤ M := by
        unfold countDistinct
        calc ((Finset.range M).image _).card ≤ (Finset.range M).card :=
              Finset.card_image_le
          _ = M := Finset.card_range M
      omega
    refine ⟨(relabelMerge (fun i => i) (argmax2 M sim).1 (argmax2 M sim).2, 1),
      ?_, le_refl 1, fun h => absurd hpos (not_lt.mpr h)⟩
    simp [gcRun, kCheck, hpos, hcd]
  · refine ⟨(fun i => i, 0), ?_, by omega, fun _ => ⟨rfl, fun i => rfl⟩⟩
    simp [gcRun, hpos]

/-- Witness for C2_target_above_node_count: two nodes, target three. -/
theorem C2_target_above_node_count_witness :
    ∃ p, graph_cut_approx (some 3) 2 sim2x2 = some p ∧ p.2 ≤ 1 ∧
      (sim2x2 (argmax2 2 sim2x2).1 (argmax2 2 sim2x2).2 ≤ 0 →
        p.2 = 0 ∧ ∀ i, p.1 i = i) :=
  C2_target_above_node_count 2 3 sim2x2 (by decide) (by decide) sim2x2_symm
    (fun i => by simp [sim2x2])

/-! ### Rank characterization of translate_to_counting_numbers -/

theorem le_foldr_max (l : List Nat) (x : Nat) (h : x ∈ l) : x ≤ l.foldr max 0 := by
  induction l with
  | nil => cases h
  | cons a t ih =>
    simp only [List.foldr_cons]
    rcases List.mem_cons.mp h with rfl | h2
    · exact le_max_left _ _
    · exact (ih h2).trans (le_max_right _ _)

theorem mem_npUnique (l : List Nat) (x : Nat) : x ∈ npUnique l ↔ x ∈ l := by
  unfold npUnique
  simp only [List.mem_filter, List.mem_range, decide_eq_true_eq]
  exact ⟨fun h => h.2, fun h => ⟨Nat.lt_succ_of_le (le_foldr_max l x h), h⟩⟩

theorem npUnique_pairwise (l : List Nat) : (npUnique l).Pairwise (· < ·) := by
  unfold npUnique
  exact List.Pairwise.sublist (List.filter_sublist _) (List.pairwise_lt_range _)

theorem sumPick_of_not_mem (u : List Nat) (x : Nat) (hx : x ∉ u) :
    ∀ k, ((u.enumFrom k).map (fun p => if x = p.2 then p.1 else 0)).sum = 0 := by
  induction u with
  | nil => intro k; rfl
  | cons y t ih =>
    intro k
    have hxy : x ≠ y := fun h => hx (h ▸ List.mem_cons_self y t)
    have hxt : x ∉ t := fun h => hx (List.mem_cons_of_mem y h)
    show (((k, y) :: List.enumFrom (k + 1) t).map
      (fun p => if x = p.2 then p.1 else 0)).sum = 0
    simp only [List.map_cons, List.sum_cons, if_neg hxy, ih hxt (k + 1)]

theorem sumPick_of_mem (u : List Nat) (hp : u.Pairwise (· < ·)) (x : Nat)
    (hx : x ∈ u) :
    ∀ k, ((u.enumFrom k).map (fun p => if x = p.2 then p.1 else 0)).sum =
      k + u.countP (fun y => decide (y < x)) := by
  induction u with
  | nil => cases hx
  | cons y t ih =>
    intro k
    obtain ⟨hy, hp2⟩ := List.pairwise_cons.mp hp
    show (((k, y) :: List.enumFrom (k + 1) t).map
      (fun p => if x = p.2 then p.1 else 0)).sum = _
    by_cases hxy : x = y
    · subst hxy
      have hxt : x ∉ t := fun h => absurd (hy x h) (lt_irrefl x)
      have h0 : t.countP (fun y => decide (y < x)) = 0 :=
        List.countP_eq_zero.mpr (fun a ha => by
          simp only [decide_eq_true_eq]
          exact Nat.lt_asymm (hy a ha))
      simp [List.countP_cons, h0, sumPick_of_not_mem t x hxt (k + 1)]
    · have hxt : x ∈ t := (List.mem_cons.mp hx).resolve_left hxy
      have hyx : y < x := hy x hxt
      simp only [List.map_cons, List.sum_cons, if_neg hxy, ih hp2 hxt (k + 1),
        List.countP_cons]
      simp [hyx]
      omega

theorem ttcn_eq_rank (a : List Nat) :
    translate_to_counting_numbers a =
      a.map (fun x => (npUnique a).countP (fun y => decide (y < x))) := by
  unfold translate_to_counting_numbers
  refine List.map_congr_left ?_
  intro x hx
  have hxu : x ∈ npUnique a := (mem_npUnique a x).mpr hx
  have h := sumPick_of_mem (npUnique a) (npUnique_pairwise a) x hxu 0
  simpa using h

theorem countP_lt_get (u : List Nat) (hp : u.Pairwise (· < ·)) :
    ∀ (v : Nat) (hv : v < u.length),
      u.countP (fun y => decide (y < u.get ⟨v, hv⟩)) = v := by
  induction u with
  | nil => intro v hv; exact absurd hv (by simp)
  | cons y t ih =>
    obtain ⟨hy, hp2⟩ := List.pairwise_cons.mp hp
    intro v hv
    cases v with
    | zero =>
      show (y :: t).countP (fun z => decide (z < y)) = 0
      rw [List.countP_cons]
      have h0 : t.countP (fun z => decide (z < y)) = 0 :=
        List.countP_eq_zero.mpr (fun a ha => by
          simp only [decide_eq_true_eq]
          exact Nat.lt_asymm (hy a ha))
      simp [h0]
    | succ w =>
      have hw : w < t.length := by
        simpa using Nat.lt_of_succ_lt_succ hv
      show (y :: t).countP (fun z => decide (z < t.get ⟨w, hw⟩)) = w + 1
      rw [List.countP_cons, ih hp2 w hw]
      have hlt : y < t.get ⟨w, hw⟩ := hy _ (t.get_mem w hw)
      have hlt2 : y < t[w] := hlt
      simp [hlt2]

/-- Claim C6 (amended): after all dendrogram merges, the restricted label map
is renumbered onto the dense range [0, M) for M the number of distinct
surviving labels, but the new number of each old label is its rank in the
ascending sorted order of the distinct old labels (np.unique sorts), not the
order of first appearance. -/
theorem C6_renumber_is_sorted_rank (store : CCStore) (N : Nat)
    (children : List (Nat × Nat)) :
    agglomerate_constrained_samples store N children =
      (agglomRestricted store N children).map
        (fun x => (npUnique (agglomRestricted store N children)).countP
          (fun y => decide (y < x))) ∧
      (∀ v ∈ agglomerate_constrained_samples store N children,
        v < (npUnique (agglomRestricted store N children)).length) ∧
      ∀ v, v < (npUnique (agglomRestricted store N children)).length →
        v ∈ agglomerate_constrained_samples store N children := by
  refine ⟨ttcn_eq_rank _, ?_, ?_⟩
  · intro v hv
    unfold agglomerate_constrained_samples at hv
    rw [ttcn_eq_rank] at hv
    obtain ⟨x, hx, rfl⟩ := List.mem_map.mp hv
    have hxu : x ∈ npUnique (agglomRestricted store N children) :=
      (mem_npUnique _ x).mpr hx
    refine lt_of_le_of_ne (List.countP_le_length _) (fun hEq => ?_)
    have h := List.countP_eq_length.mp hEq x hxu
    simp at h
  · intro v hv
    unfold agglomerate_constrained_samples
    rw [ttcn_eq_rank]
    refine List.mem_map.mpr ⟨(npUnique (agglomRestricted store N children)).get
      ⟨v, hv⟩, ?_, ?_⟩
    · exact (mem_npUnique _ _).mp (List.get_mem _ v hv)
    · exact countP_lt_get _ (npUnique_pairwise _) v hv

/-! ### Properties of argmax2 and the greedy cut -/

theorem argmax2_lt (M : Nat) (sim : Nat → Nat → Int) (hM : 1 ≤ M) :
    (argmax2 M sim).1 < M ∧ (argmax2 M sim).2 < M := by
  unfold argmax2
  have key : ∀ (l : List Nat) (best : Nat × Nat),
      (∀ k ∈ l, k < M * M) → best.1 < M → best.2 < M →
      (l.foldl (fun best k =>
        if sim best.1 best.2 < sim (k / M) (k % M) then (k / M, k % M) else best)
        best).1 < M ∧
      (l.foldl (fun best k =>
        if sim best.1 best.2 < sim (k / M) (k % M) then (k / M, k % M) else best)
        best).2 < M := by
    intro l
    induction l with
    | nil => intro best _ h1 h2; exact ⟨h1, h2⟩
    | cons a t ih =>
      intro best h h1 h2
      simp only [List.foldl_cons]
      by_cases hc : sim best.1 best.2 < sim (a / M) (a % M)
      · rw [if_pos hc]
        refine ih (a / M, a % M) (fun k hk => h k (List.mem_cons_of_mem a hk)) ?_ ?_
        · have ha : a < M * M := h a (List.mem_cons_self a t)
          exact Nat.div_lt_of_lt_mul ha
        · exact Nat.mod_lt a hM
      · rw [if_neg hc]
        exact ih best (fun k hk => h k (List.mem_cons_of_mem a hk)) h1 h2
  exact key (List.range (M * M)) (0, 0) (fun k hk => List.mem_range.mp hk) hM hM

theorem argmax2_is_max (M : Nat) (sim : Nat → Nat → Int) :
    ∀ i < M, ∀ j < M, sim i j ≤ sim (argmax2 M sim).1 (argmax2 M sim).2 := by
  have key : ∀ (l : List Nat) (best : Nat × Nat),
      sim best.1 best.2 ≤
        sim ((l.foldl (fun best k =>
          if sim best.1 best.2 < sim (k / M) (k % M) then (k / M, k % M) else best)
          best).1)
          ((l.foldl (fun best k =>
          if sim best.1 best.2 < sim (k / M) (k % M) then (k / M, k % M) else best)
          best).2) ∧
      ∀ k ∈ l, sim (k / M) (k % M) ≤
        sim ((l.foldl (fun best k =>
          if sim best.1 best.2 < sim (k / M) (k % M) then (k / M, k % M) else best)
          best).1)
          ((l.foldl (fun best k =>
          if sim best.1 best.2 < sim (k / M) (k % M) then (k / M, k % M) else best)
          best).2) := by
    intro l
    induction l with
    | nil =>
      intro best
      exact ⟨le_refl _, fun k hk => absurd hk (List.not_mem_nil k)⟩
    | cons a t ih =>
      intro best
      simp only [List.foldl_cons]
      by_cases hc : sim best.1 best.2 < sim (a / M) (a % M)
      · rw [if_pos hc]
        refine ⟨le_of_lt (lt_of_lt_of_le hc (ih (a / M, a % M)).1), fun k hk => ?_⟩
        rcases List.mem_cons.mp hk with rfl | hk2
        · exact (ih (k / M, k % M)).1
        · exact (ih (a / M, a % M)).2 k hk2
      · rw [if_neg hc]
        refine ⟨(ih best).1, fun k hk => ?_⟩
        rcases List.mem_cons.mp hk with rfl | hk2
        · exact le_trans (not_lt.mp hc) (ih best).1
        · exact (ih best).2 k hk2
  intro i hi j hj
  have hk : i * M + j < M * M := by
    calc i * M + j < i * M + M := by omega
      _ = (i + 1) * M := by ring
      _ ≤ M * M := Nat.mul_le_mul_right M (by omega)
  have hdiv : (i * M + j) / M = i := by
    rw [Nat.add_comm, Nat.add_mul_div_right j i (by omega), Nat.div_eq_of_lt hj]
    omega
  have hmod : (i * M + j) % M = j := by
    rw [Nat.add_comm, Nat.add_mul_mod_self_right]
    exact Nat.mod_eq_of_lt hj
  have h := (key (List.range (M * M)) (0, 0)).2 (i * M + j)
    (List.mem_range.mpr hk)
  rw [hdiv, hmod] at h
  exact h

theorem relabelMerge_inv (M : Nat) (l : Nat → Nat) (r c : Nat) (hr : r < M)
    (h1 : ∀ i < M, l i < M) (h2 : ∀ i < M, l (l i) = l i) :
    (∀ i < M, relabelMerge l r c i < M) ∧
      ∀ i < M, relabelMerge l r c (relabelMerge l r c i) = relabelMerge l r c i := by
  constructor
  · intro i hi
    unfold relabelMerge
    by_cases h : l i = l c
    · rw [if_pos h]; exact h1 r hr
    · rw [if_neg h]; exact h1 i hi
  · intro i hi
    unfold relabelMerge
    by_cases h : l i = l c
    · rw [if_pos h]
      by_cases h3 : l (l r) = l c
      · rw [if_pos h3]
      · rw [if_neg h3, h2 r hr]
    · rw [if_neg h]
      by_cases h3 : l (l i) = l c
      · rw [h2 i hi] at h3
        exact absurd h3 h
      · rw [if_neg h3, h2 i hi]

theorem gcRun_inv (K : Option Nat) (M : Nat) :
    ∀ (fuel : Nat) (l : Nat → Nat) (sim : Nat → Nat → Int)
      (p : (Nat → Nat) × Nat),
      (∀ i < M, l i < M) → (∀ i < M, l (l i) = l i) →
      gcRun K M fuel l sim = some p →
      (∀ i < M, p.1 i < M) ∧ ∀ i < M, p.1 (p.1 i) = p.1 i := by
  intro fuel
  induction fuel with
  | zero =>
    intro l sim p _ _ hrun
    exact absurd hrun (by simp [gcRun])
  | succ n ih =>
    intro l sim p h1 h2 hrun
    simp only [gcRun] at hrun
    rcases Nat.eq_zero_or_pos M with hM0 | hM1
    · subst hM0
      exact ⟨fun i hi => absurd hi (by omega), fun i hi => absurd hi (by omega)⟩
    · by_cases hpos : 0 < sim (argmax2 M sim).1 (argmax2 M sim).2
      · rw [if_pos hpos] at hrun
        have hinv := relabelMerge_inv M l (argmax2 M sim).1 (argmax2 M sim).2
          (argmax2_lt M sim hM1).1 h1 h2
        by_cases hk : kCheck K M
            (relabelMerge l (argmax2 M sim).1 (argmax2 M sim).2) = true
        · rw [if_pos hk] at hrun
          obtain rfl : (relabelMerge l (argmax2 M sim).1 (argmax2 M sim).2, 1) = p :=
            Option.some.inj hrun
          exact hinv
        · rw [if_neg hk] at hrun
          obtain ⟨q, hq, rfl⟩ := Option.map_eq_some'.mp hrun
          exact ih (relabelMerge l (argmax2 M sim).1 (argmax2 M sim).2)
            (gcStep sim (argmax2 M sim).1 (argmax2 M sim).2) q hinv.1 hinv.2 hq
      · rw [if_neg hpos] at hrun
        obtain rfl : (l, 0) = p := Option.some.inj hrun
        exact ⟨h1, h2⟩

theorem chain_fix (f : Nat → Nat) :
    ∀ (todo : List Nat) (s : Nat), f s = s →
      todo.foldl (fun s lab => if s = lab then f lab else s) s = s := by
  intro todo
  induction todo with
  | nil => intro s _; rfl
  | cons lab rest ih =>
    intro s hs
    simp only [List.foldl_cons]
    by_cases h : s = lab
    · subst h
      rw [if_pos rfl, hs]
      exact ih s hs
    · rw [if_neg h]
      exact ih s hs

theorem chain_eq (f : Nat → Nat) :
    ∀ (todo : List Nat) (v : Nat), f (f v) = f v → v ∈ todo →
      todo.foldl (fun s lab => if s = lab then f lab else s) v = f v := by
  intro todo
  induction todo with
  | nil => intro v _ hv; cases hv
  | cons lab rest ih =>
    intro v hfix hv
    simp only [List.foldl_cons]
    by_cases h : v = lab
    · subst h
      rw [if_pos rfl]
      exact chain_fix f rest (f v) hfix
    · rw [if_neg h]
      exact ih v hfix ((List.mem_cons.mp hv).resolve_left h)

theorem translate_fold_as_chain (f : Nat → Nat) :
    ∀ (todo cur : List Nat),
      todo.foldl (fun cur lab => cur.map (fun x => if x = lab then f lab else x))
        cur =
      cur.map (fun v => todo.foldl (fun s lab => if s = lab then f lab else s) v) := by
  intro todo
  induction todo with
  | nil => intro cur; exact (List.map_id cur).symm
  | cons lab rest ih =>
    intro cur
    simp only [List.foldl_cons]
    rw [ih (cur.map (fun x => if x = lab then f lab else x)), List.map_map]
    rfl

theorem translate_labels_eq_map (ls : List Nat) (f : Nat → Nat)
    (hid : ∀ x ∈ ls, f (f x) = f x) :
    translate_labels ls f = ls.map f := by
  unfold translate_labels
  rw [translate_fold_as_chain]
  refine List.map_congr_left ?_
  intro x hx
  exact chain_eq f (npUnique ls) x (hid x hx) ((mem_npUnique ls x).mpr hx)

/-- Claim C10: the relabeling returned by graph_cut_approx is idempotent on the
node indices below M, and consequently translate_labels' sequential in-place
remapping coincides with a single pointwise application of the map to any
label array whose entries lie below M. -/
theorem C10_idempotent_and_translate_once (K : Option Nat) (M : Nat)
    (sim : Nat → Nat → Int) (p : (Nat → Nat) × Nat) (ls : List Nat)
    (hrun : graph_cut_approx K M sim = some p)
    (hls : ∀ x ∈ ls, x < M) :
    (∀ i < M, p.1 (p.1 i) = p.1 i) ∧ translate_labels ls p.1 = ls.map p.1 := by
  have hinv := gcRun_inv K M (M + 1) (fun i => i) sim p
    (fun i hi => hi) (fun i _ => rfl) hrun
  refine ⟨hinv.2, translate_labels_eq_map ls p.1 ?_⟩
  intro x hx
  exact hinv.2 x (hls x hx)

/-- Witness for C10_idempotent_and_translate_once: the concrete two-node cut
of the counterexample pipeline and the label array [0, 0, 1, 1]. -/
theorem C10_idempotent_and_translate_once_witness :
    ∃ p, graph_cut_approx none 2 sim2x2 = some p ∧
      (∀ i < 2, p.1 (p.1 i) = p.1 i) ∧
      translate_labels [0, 0, 1, 1] p.1 = [0, 0, 1, 1].map p.1 := by
  refine ⟨(relabelMerge (fun i => i) 0 1, 1), rfl, ?_⟩
  exact C10_idempotent_and_translate_once none 2 sim2x2
    (relabelMerge (fun i => i) 0 1, 1) [0, 0, 1, 1] rfl (by decide)

theorem gcStep_diag_le (sim : Nat → Nat → Int) (r c : Nat) (hrc : r ≠ c)
    (hdiag : ∀ i, sim i i ≤ 0) : ∀ i, gcStep sim r c i i ≤ 0 := by
  intro i
  rw [gcStep_eq]
  by_cases hic : i = c
  · rw [if_pos ⟨hic, hic⟩]
  · rw [if_neg (fun h => hic h.1)]
    by_cases hir : i = r
    · rw [if_pos hir]
      omega
    · rw [if_neg hir, if_neg hir, if_neg hic, if_neg hic]
      exact hdiag i

theorem gcStep_dead_preserved (sim : Nat → Nat → Int) (r c : Nat)
    (d : Finset Nat) (hrc : r ≠ c) (hrd : r ∉ d) (hcd : c ∉ d)
    (hdead : ∀ i ∈ d, ∀ j, sim i j ≤ -1 ∧ sim j i ≤ -1) :
    ∀ i ∈ insert r d, ∀ j,
      gcStep sim r c i j ≤ -1 ∧ gcStep sim r c j i ≤ -1 := by
  intro i hi j
  rcases Finset.mem_insert.mp hi with rfl | hid2
  · constructor
    · rw [gcStep_eq]
      by_cases hjr : j = i
      · rw [if_neg (fun h => hrc h.1), if_pos hjr]
      · rw [if_neg (fun h => hrc h.1), if_neg hjr, if_pos rfl]
    · rw [gcStep_eq, if_neg (fun h => hrc h.2), if_pos rfl]
  · have hic : i ≠ c := fun h => hcd (h ▸ hid2)
    have hir : i ≠ r := fun h => hrd (h ▸ hid2)
    constructor
    · rw [gcStep_eq, if_neg (fun h => hic h.1)]
      by_cases hjr : j = r
      · rw [if_pos hjr]
      · rw [if_neg hjr, if_neg hir]
        by_cases hjc : j = c
        · rw [if_pos hjc]
          have h1 := (hdead i hid2 c).2
          have h2 := (hdead i hid2 r).2
          omega
        · rw [if_neg hjc, if_neg hic]
          exact (hdead i hid2 j).1
    · rw [gcStep_eq, if_neg (fun h => hic h.2), if_neg hir]
      by_cases hjr : j = r
      · rw [if_pos hjr]
      · rw [if_neg hjr, if_neg hic]
        by_cases hjc : j = c
        · rw [if_pos hjc]
          have h1 := (hdead i hid2 c).2
          have h2 := (hdead i hid2 r).2
          omega
        · rw [if_neg hjc]
          exact (hdead i hid2 j).2

theorem gcRun_some (K : Option Nat) (M : Nat) :
    ∀ (fuel : Nat) (l : Nat → Nat) (sim : Nat → Nat → Int) (d : Finset Nat),
      d ⊆ Finset.range M → d.card < M →
      (∀ i, sim i i ≤ 0) →
      (∀ i ∈ d, ∀ j, sim i j ≤ -1 ∧ sim j i ≤ -1) →
      M ≤ d.card + fuel →
      ∃ pr, gcRun K M fuel l sim = some pr ∧ pr.2 + d.card + 1 ≤ M := by
  intro fuel
  induction fuel with
  | zero =>
    intro l sim d _ hlt _ _ hfuel
    omega
  | succ n ih =>
    intro l sim d hsub hlt hdiag hdead hfuel
    by_cases hpos : 0 < sim (argmax2 M sim).1 (argmax2 M sim).2
    · have hM : 1 ≤ M := by omega
      obtain ⟨hrM, hcM⟩ := argmax2_lt M sim hM
      have hrd : (argmax2 M sim).1 ∉ d := by
        intro h
        have := (hdead _ h (argmax2 M sim).2).1
        omega
      have hcdd : (argmax2 M sim).2 ∉ d := by
        intro h
        have := (hdead _ h (argmax2 M sim).1).2
        omega
      have hrc : (argmax2 M sim).1 ≠ (argmax2 M sim).2 := by
        intro h
        rw [h] at hpos
        have := hdiag (argmax2 M sim).2
        omega
      have hcard2 : (insert (argmax2 M sim).1 d).card = d.card + 1 :=
        Finset.card_insert_of_not_mem hrd
      have hsub2 : insert (argmax2 M sim).1 d ⊆ Finset.range M :=
        Finset.insert_subset_iff.mpr ⟨Finset.mem_range.mpr hrM, hsub⟩
      have hlt2 : (insert (argmax2 M sim).1 d).card < M := by
        have hss : insert (argmax2 M sim).1 d ⊂ Finset.range M := by
          rw [Finset.ssubset_iff_of_subset hsub2]
          refine ⟨(argmax2 M sim).2, Finset.mem_range.mpr hcM, fun hmem => ?_⟩
          rcases Finset.mem_insert.mp hmem with h | h
          · exact hrc h.symm
          · exact hcdd h
        have hcc := Finset.card_lt_card hss
        rwa [Finset.card_range] at hcc
      have hdiag2 := gcStep_diag_le sim (argmax2 M sim).1 (argmax2 M sim).2
        hrc hdiag
      have hdead2 := gcStep_dead_preserved sim (argmax2 M sim).1
        (argmax2 M sim).2 d hrc hrd hcdd hdead
      have hltA : d.card + 1 < M := hcard2 ▸ hlt2
      by_cases hk : kCheck K M
          (relabelMerge l (argmax2 M sim).1 (argmax2 M sim).2) = true
      · refine ⟨(relabelMerge l (argmax2 M sim).1 (argmax2 M sim).2, 1), ?_,
          by omega⟩
        simp only [gcRun]
        rw [if_pos hpos, if_pos hk]
      · obtain ⟨q, hq, hbound⟩ := ih
          (relabelMerge l (argmax2 M sim).1 (argmax2 M sim).2)
          (gcStep sim (argmax2 M sim).1 (argmax2 M sim).2)
          (insert (argmax2 M sim).1 d) hsub2 hlt2 hdiag2 hdead2
          (by rw [hcard2]; omega)
        refine ⟨(q.1, q.2 + 1), ?_, ?_⟩
        · simp only [gcRun]
          rw [if_pos hpos, if_neg hk, hq]
          rfl
        · rw [hcard2] at hbound
          omega
    · refine ⟨(l, 0), ?_, by omega⟩
      simp only [gcRun]
      rw [if_neg hpos]

/-- Claim C7: on any symmetric zero-diagonal similarity matrix over M nodes
(M at least 1, the shape merge_nodes produces), the greedy cut loop terminates
- fuel M+1 is never exhausted - after at most M-1 accepted merges, and no
relabeling step ever increases the number of distinct labels. -/
theorem C7_cut_terminates_and_monotone (K : Option Nat) (M : Nat)
    (sim : Nat → Nat → Int) (hM : 1 ≤ M)
    (hsym : ∀ i j, sim i j = sim j i) (hdiag : ∀ i, sim i i = 0) :
    (∃ pr, graph_cut_approx K M sim = some pr ∧ pr.2 + 1 ≤ M) ∧
      ∀ (l : Nat → Nat) (r c : Nat), r < M →
        countDistinct M (relabelMerge l r c) ≤ countDistinct M l := by
  constructor
  · obtain ⟨pr, hrun, hb⟩ := gcRun_some K M (M + 1) (fun i => i) sim ∅
      (Finset.empty_subset _) (by simpa using hM) (fun i => le_of_eq (hdiag i))
      (fun i hi => absurd hi (Finset.not_mem_empty i))
      (by simp only [Finset.card_empty]; omega)
    refine ⟨pr, hrun, ?_⟩
    simpa using hb
  · intro l r c hr
    unfold countDistinct
    apply Finset.card_le_card
    intro v hv
    simp only [Finset.mem_image, Finset.mem_range] at hv ⊢
    obtain ⟨i, hi, hvi⟩ := hv
    unfold relabelMerge at hvi
    by_cases h : l i = l c
    · rw [if_pos h] at hvi
      exact ⟨r, hr, hvi⟩
    · rw [if_neg h] at hvi
      exact ⟨i, hi, hvi⟩

/-- Witness for C7_cut_terminates_and_monotone at the concrete matrix sim2x2. -/
theorem C7_cut_terminates_and_monotone_witness :
    (∃ pr, graph_cut_approx none 2 sim2x2 = some pr ∧ pr.2 + 1 ≤ 2) ∧
      ∀ (l : Nat → Nat) (r c : Nat), r < 2 →
        countDistinct 2 (relabelMerge l r c) ≤ countDistinct 2 l :=
  C7_cut_terminates_and_monotone none 2 sim2x2 (by decide) sim2x2_symm
    (fun i => by simp [sim2x2])

/-! ### The dendrogram contract and the CL-freedom of agglomeration -/

/-- Modelled from the spec (section 6): the external dendrogram's contract -
every merge combines two distinct current clusters of the evolving partition,
both nonempty, and the evolution replaces them by their union. -/
def validMergesB : List (List Nat × List Nat) → List (List Nat) → Bool
  | [], _ => true
  | m :: rest, cs =>
    decide (m.1 ∈ cs) && decide (m.2 ∈ cs) && !decide (m.1 = m.2) &&
      !m.1.isEmpty && !m.2.isEmpty &&
      validMergesB rest ((m.1 ++ m.2) :: (cs.erase m.1).erase m.2)

/-- The cluster lists form a partition of the sample range. -/
def Partition (N : Nat) (cs : List (List Nat)) : Prop :=
  (∀ cc ∈ cs, cc ≠ []) ∧
    (∀ cc ∈ cs, ∀ x ∈ cc, x < N) ∧
    (∀ x, x < N → ∃ cc ∈ cs, x ∈ cc) ∧
    cs.Pairwise (fun a b => ∀ x, x ∈ a → x ∉ b)

/-- Every label class refines the current cluster partition. -/
def LabelsRefine (N : Nat) (cs : List (List Nat)) (labels : Nat → Nat) : Prop :=
  ∀ s t, s < N → t < N → s ≠ t → labels s = labels t →
    ∃ cc ∈ cs, s ∈ cc ∧ t ∈ cc

/-- No two distinct samples of one label class form a CL row. -/
def LabelsCLfree (N : Nat) (store : CCStore) (labels : Nat → Nat) : Prop :=
  ∀ s t, s < N → t < N → s ≠ t → labels s = labels t → (s, t) ∉ store.CL

theorem headD_mem (l : List Nat) (h : l ≠ []) : l.headD 0 ∈ l := by
  cases l with
  | nil => exact absurd rfl h
  | cons a t => exact List.mem_cons_self a t

theorem not_violated_no_CL (store : CCStore) (g : List Nat)
    (h : is_CL_violated store g = false) :
    ∀ s ∈ g, ∀ t ∈ g, (s, t) ∉ store.CL := by
  intro s hs t ht hst
  unfold is_CL_violated at h
  rw [List.any_eq_false] at h
  apply h t ht
  simp only [decide_eq_true_eq]
  rw [mem_other_sample_in_pair]
  simp only [if_pos rfl]
  exact ⟨(s, t), hst, hs, rfl⟩

theorem pairwise_disjoint_unique (cs : List (List Nat))
    (hp : cs.Pairwise (fun a b => ∀ x, x ∈ a → x ∉ b))
    (a b : List Nat) (ha : a ∈ cs) (hb : b ∈ cs) (x : Nat)
    (hxa : x ∈ a) (hxb : x ∈ b) : a = b := by
  induction cs with
  | nil => cases ha
  | cons cc rest ih =>
    obtain ⟨hhead, hrest⟩ := List.pairwise_cons.mp hp
    rcases List.mem_cons.mp ha with rfl | ha2
    · rcases List.mem_cons.mp hb with rfl | hb2
      · rfl
      · exact absurd hxb (hhead b hb2 x hxa)
    · rcases List.mem_cons.mp hb with rfl | hb2
      · exact absurd hxa (hhead a ha2 x hxb)
      · exact ih hrest ha2 hb2

theorem singletons_partition (N : Nat) : Partition N (singletonClusters N) := by
  refine ⟨?_, ?_, ?_, ?_⟩
  · intro cc hcc
    obtain ⟨x, _, rfl⟩ := List.mem_map.mp hcc
    exact List.cons_ne_nil x []
  · intro cc hcc x hx
    obtain ⟨y, hy, rfl⟩ := List.mem_map.mp hcc
    rw [List.mem_singleton.mp hx]
    exact List.mem_range.mp hy
  · intro x hx
    exact ⟨[x], List.mem_map.mpr ⟨x, List.mem_range.mpr hx, rfl⟩,
      List.mem_singleton.mpr rfl⟩
  · unfold singletonClusters
    rw [List.pairwise_map]
    refine List.Pairwise.imp ?_ (List.pairwise_lt_range N)
    intro a b hab x hxa hxb
    rw [List.mem_singleton.mp hxa] at hxb
    exact absurd (List.mem_singleton.mp hxb) (Nat.ne_of_lt hab)

theorem partition_merge (N : Nat) (cs : List (List Nat)) (g1 g2 : List Nat)
    (hP : Partition N cs) (hg1 : g1 ∈ cs) (hg2 : g2 ∈ cs) (hne : g1 ≠ g2) :
    Partition N ((g1 ++ g2) :: (cs.erase g1).erase g2) := by
  obtain ⟨hnil, hbound, hcover, hdisj⟩ := hP
  have hnodup : cs.Nodup := by
    refine List.Pairwise.imp_of_mem ?_ hdisj
    intro a b ha _ hr heq
    obtain ⟨x, hx⟩ := List.exists_mem_of_ne_nil a (hnil a ha)
    exact hr x hx (heq ▸ hx)
  have htail_sub : ∀ cc ∈ (cs.erase g1).erase g2, cc ∈ cs :=
    fun cc h => List.mem_of_mem_erase (List.mem_of_mem_erase h)
  have hg1notail : g1 ∉ (cs.erase g1).erase g2 := by
    intro h
    have h2 := List.mem_of_mem_erase h
    exact (hnodup.mem_erase_iff.mp h2).1 rfl
  have hg2notail : g2 ∉ (cs.erase g1).erase g2 := by
    intro h
    exact (((hnodup.erase g1).mem_erase_iff).mp h).1 rfl
  refine ⟨?_, ?_, ?_, ?_⟩
  · intro cc hcc
    rcases List.mem_cons.mp hcc with rfl | h2
    · intro h
      exact hnil g1 hg1 (List.append_eq_nil.mp h).1
    · exact hnil cc (htail_sub cc h2)
  · intro cc hcc x hx
    rcases List.mem_cons.mp hcc with rfl | h2
    · rcases List.mem_append.mp hx with h | h
      · exact hbound g1 hg1 x h
      · exact hbound g2 hg2 x h
    · exact hbound cc (htail_sub cc h2) x hx
  · intro x hx
    obtain ⟨cc, hcc, hxcc⟩ := hcover x hx
    by_cases hc1 : cc = g1
    · exact ⟨g1 ++ g2, List.mem_cons_self _ _,
        List.mem_append_left g2 (hc1 ▸ hxcc)⟩
    · by_cases hc2 : cc = g2
      · exact ⟨g1 ++ g2, List.mem_cons_self _ _,
          List.mem_append_right g1 (hc2 ▸ hxcc)⟩
      · exact ⟨cc, List.mem_cons_of_mem _
          ((List.mem_erase_of_ne hc2).mpr ((List.mem_erase_of_ne hc1).mpr hcc)),
          hxcc⟩
  · rw [List.pairwise_cons]
    constructor
    · intro dd hdd x hx hxdd
      have hddcs := htail_sub dd hdd
      rcases List.mem_append.mp hx with hx1 | hx2
      · have heq : dd = g1 :=
          pairwise_disjoint_unique cs hdisj dd g1 hddcs hg1 x hxdd hx1
        exact hg1notail (heq ▸ hdd)
      · have heq : dd = g2 :=
          pairwise_disjoint_unique cs hdisj dd g2 hddcs hg2 x hxdd hx2
        exact hg2notail (heq ▸ hdd)
    · exact List.Pairwise.sublist
        (((cs.erase g1).erase_sublist g2).trans (cs.erase_sublist g1)) hdisj

theorem agglomStep_inv (store : CCStore) (N : Nat) (cs : List (List Nat))
    (labels : Nat → Nat) (g1 g2 : List Nat)
    (hP : Partition N cs) (hg1 : g1 ∈ cs) (hg2 : g2 ∈ cs) (hne : g1 ≠ g2)
    (hg2ne : g2 ≠ [])
    (h1 : LabelsRefine N cs labels) (h2 : LabelsCLfree N store labels) :
    LabelsRefine N ((g1 ++ g2) :: (cs.erase g1).erase g2)
        (agglomStep store labels (g1, g2)) ∧
      LabelsCLfree N store (agglomStep store labels (g1, g2)) := by
  obtain ⟨hnil, hbound, hcover, hdisj⟩ := hP
  have hh2mem : g2.headD 0 ∈ g2 := headD_mem g2 hg2ne
  have hh2N : g2.headD 0 < N := hbound g2 hg2 _ hh2mem
  -- membership transfer for the untouched clusters
  have htail : ∀ cc ∈ cs, cc ≠ g1 → cc ≠ g2 →
      cc ∈ (cs.erase g1).erase g2 := fun cc hcc hc1 hc2 =>
    (List.mem_erase_of_ne hc2).mpr ((List.mem_erase_of_ne hc1).mpr hcc)
  unfold agglomStep
  by_cases hviol : is_CL_violated store (g1 ++ g2) = true
  · rw [if_pos hviol]
    constructor
    · intro s t hs ht hst heq
      obtain ⟨cc, hcc, hscc, htcc⟩ := h1 s t hs ht hst heq
      by_cases hc1 : cc = g1
      · exact ⟨g1 ++ g2, List.mem_cons_self _ _,
          List.mem_append_left g2 (hc1 ▸ hscc),
          List.mem_append_left g2 (hc1 ▸ htcc)⟩
      · by_cases hc2 : cc = g2
        · exact ⟨g1 ++ g2, List.mem_cons_self _ _,
            List.mem_append_right g1 (hc2 ▸ hscc),
            List.mem_append_right g1 (hc2 ▸ htcc)⟩
        · exact ⟨cc, List.mem_cons_of_mem _ (htail cc hcc hc1 hc2), hscc, htcc⟩
    · exact h2
  · rw [if_neg hviol]
    have hgate := not_violated_no_CL store (g1 ++ g2)
      (Bool.not_eq_true _ ▸ hviol)
    -- a sample with the head label that is not in g1 lies in g2
    have hclass : ∀ t, t < N → t ∉ g1 → labels t = labels (g2.headD 0) →
        t ∈ g2 := by
      intro t ht htg1 heq
      by_cases hth : t = g2.headD 0
      · exact hth ▸ hh2mem
      · obtain ⟨cc, hcc, htcc, hhcc⟩ := h1 t (g2.headD 0) ht hh2N hth heq
        have hccg2 : cc = g2 :=
          pairwise_disjoint_unique cs hdisj cc g2 hcc hg2 (g2.headD 0) hhcc hh2mem
        exact hccg2 ▸ htcc
    constructor
    · intro s t hs ht hst heq
      simp only at heq
      by_cases hsg1 : s ∈ g1 <;> by_cases htg1 : t ∈ g1
      · exact ⟨g1 ++ g2, List.mem_cons_self _ _,
          List.mem_append_left g2 hsg1, List.mem_append_left g2 htg1⟩
      · rw [if_pos hsg1, if_neg htg1] at heq
        have htg2 : t ∈ g2 := hclass t ht htg1 heq.symm
        exact ⟨g1 ++ g2, List.mem_cons_self _ _,
          List.mem_append_left g2 hsg1, List.mem_append_right g1 htg2⟩
      · rw [if_neg hsg1, if_pos htg1] at heq
        have hsg2 : s ∈ g2 := hclass s hs hsg1 heq
        exact ⟨g1 ++ g2, List.mem_cons_self _ _,
          List.mem_append_right g1 hsg2, List.mem_append_left g2 htg1⟩
      · rw [if_neg hsg1, if_neg htg1] at heq
        obtain ⟨cc, hcc, hscc, htcc⟩ := h1 s t hs ht hst heq
        by_cases hc1 : cc = g1
        · exact absurd (hc1 ▸ hscc) hsg1
        · by_cases hc2 : cc = g2
          · exact ⟨g1 ++ g2, List.mem_cons_self _ _,
              List.mem_append_right g1 (hc2 ▸ hscc),
              List.mem_append_right g1 (hc2 ▸ htcc)⟩
          · exact ⟨cc, List.mem_cons_of_mem _ (htail cc hcc hc1 hc2), hscc, htcc⟩
    · intro s t hs ht hst heq
      simp only at heq
      by_cases hsg1 : s ∈ g1 <;> by_cases htg1 : t ∈ g1
      · exact hgate s (List.mem_append_left g2 hsg1) t
          (List.mem_append_left g2 htg1)
      · rw [if_pos hsg1, if_neg htg1] at heq
        have htg2 : t ∈ g2 := hclass t ht htg1 heq.symm
        exact hgate s (List.mem_append_left g2 hsg1) t
          (List.mem_append_right g1 htg2)
      · rw [if_neg hsg1, if_pos htg1] at heq
        have hsg2 : s ∈ g2 := hclass s hs hsg1 heq
        exact hgate s (List.mem_append_right g1 hsg2) t
          (List.mem_append_left g2 htg1)
      · rw [if_neg hsg1, if_neg htg1] at heq
        exact h2 s t hs ht hst heq

theorem agglomFold_CLfree (store : CCStore) (N : Nat) :
    ∀ (merges : List (List Nat × List Nat)) (cs : List (List Nat))
      (labels : Nat → Nat),
      validMergesB merges cs = true →
      Partition N cs →
      LabelsRefine N cs labels →
      LabelsCLfree N store labels →
      LabelsCLfree N store (merges.foldl (agglomStep store) labels) := by
  intro merges
  induction merges with
  | nil =>
    intro cs labels _ _ _ h2
    exact h2
  | cons m rest ih =>
    intro cs labels hvm hP h1 h2
    obtain ⟨g1, g2⟩ := m
    unfold validMergesB at hvm
    simp only [Bool.and_eq_true, decide_eq_true_eq, Bool.not_eq_true',
      decide_eq_false_iff_not] at hvm
    obtain ⟨⟨⟨⟨⟨hmem1, hmem2⟩, hneq⟩, hne1⟩, hne2⟩, hrest⟩ := hvm
    have hg2ne : g2 ≠ [] := by
      intro h
      rw [h] at hne2
      simp at hne2
    have hstep := agglomStep_inv store N cs labels g1 g2 hP hmem1 hmem2 hneq
      hg2ne h1 h2
    simp only [List.foldl_cons]
    exact ih ((g1 ++ g2) :: (cs.erase g1).erase g2)
      (agglomStep store labels (g1, g2)) hrest
      (partition_merge N cs g1 g2 hP hmem1 hmem2 hneq) hstep.1 hstep.2

theorem ttcn_inj_on (a : List Nat) (x y : Nat) (hx : x ∈ a) (hy : y ∈ a)
    (hxy : x ≠ y) :
    (npUnique a).countP (fun z => decide (z < x)) ≠
      (npUnique a).countP (fun z => decide (z < y)) := by
  obtain ⟨vx, hvx⟩ := List.mem_iff_get.mp ((mem_npUnique a x).mpr hx)
  obtain ⟨vy, hvy⟩ := List.mem_iff_get.mp ((mem_npUnique a y).mpr hy)
  subst hvx
  subst hvy
  rw [countP_lt_get (npUnique a) (npUnique_pairwise a) vx.1 vx.2,
    countP_lt_get (npUnique a) (npUnique_pairwise a) vy.1 vy.2]
  intro h
  exact hxy (by rw [show vx = vy from Fin.ext h])

/-- Claim C1 (amended): the labelSet produced by the dendrogram agglomeration
respects every cannot-link pair of distinct samples - under the external
dendrogram contract - because a label merge happens only when the combined
group violates no CL row.  The final labelSet after the greedy node merge does
not keep this property (see the C1 counterexample): two nodes joined by both
ML and CL edges are merged whenever their net similarity is positive. -/
theorem C1_agglomeration_respects_CL (constraintMat : List (Nat × Nat × Nat))
    (N : Nat) (children : List (Nat × Nat)) (i j pi pj : Nat)
    (hvm : validMergesB (linkage_to_merges N children)
      (singletonClusters N) = true)
    (hiN : i < N) (hjN : j < N) (hij : i ≠ j)
    (hCL : (i, j) ∈ (ccInit constraintMat).CL)
    (hpi : pi < (ccInit constraintMat).constrainedSamps.length)
    (hpj : pj < (ccInit constraintMat).constrainedSamps.length)
    (hgi : (ccInit constraintMat).constrainedSamps.getD pi 0 = i)
    (hgj : (ccInit constraintMat).constrainedSamps.getD pj 0 = j) :
    (agglomerate_constrained_samples (ccInit constraintMat) N
        children).getD pi 0 ≠
      (agglomerate_constrained_samples (ccInit constraintMat) N
        children).getD pj 0 := by
  have hfree : LabelsCLfree N (ccInit constraintMat)
      ((linkage_to_merges N children).foldl
        (agglomStep (ccInit constraintMat)) (fun x => x)) :=
    agglomFold_CLfree (ccInit constraintMat) N (linkage_to_merges N children)
      (singletonClusters N) (fun x => x) hvm (singletons_partition N)
      (fun s t _ _ hst heq => absurd heq hst)
      (fun s t _ _ hst heq => absurd heq hst)
  have hlabel_ne :
      ((linkage_to_merges N children).foldl
        (agglomStep (ccInit constraintMat)) (fun x => x)) i ≠
      ((linkage_to_merges N children).foldl
        (agglomStep (ccInit constraintMat)) (fun x => x)) j :=
    fun heq => hfree i j hiN hjN hij heq hCL
  have hout : agglomerate_constrained_samples (ccInit constraintMat) N children =
      (agglomRestricted (ccInit constraintMat) N children).map
        (fun x => (npUnique (agglomRestricted (ccInit constraintMat) N
          children)).countP (fun y => decide (y < x))) :=
    ttcn_eq_rank _
  have hrlen : (agglomRestricted (ccInit constraintMat) N children).length =
      (ccInit constraintMat).constrainedSamps.length := by
    unfold agglomRestricted
    simp
  have hsi : (ccInit constraintMat).constrainedSamps[pi] = i := by
    rw [← List.getD_eq_getElem _ 0 hpi]
    exact hgi
  have hsj : (ccInit constraintMat).constrainedSamps[pj] = j := by
    rw [← List.getD_eq_getElem _ 0 hpj]
    exact hgj
  have himem : i ∈ (ccInit constraintMat).constrainedSamps :=
    hsi ▸ List.getElem_mem hpi
  have hjmem : j ∈ (ccInit constraintMat).constrainedSamps :=
    hsj ▸ List.getElem_mem hpj
  rw [hout]
  have hlpi : pi < ((agglomRestricted (ccInit constraintMat) N children).map
      (fun x => (npUnique (agglomRestricted (ccInit constraintMat) N
        children)).countP (fun y => decide (y < x)))).length := by
    simpa [hrlen] using hpi
  have hlpj : pj < ((agglomRestricted (ccInit constraintMat) N children).map
      (fun x => (npUnique (agglomRestricted (ccInit constraintMat) N
        children)).countP (fun y => decide (y < x)))).length := by
    simpa [hrlen] using hpj
  rw [List.getD_eq_getElem _ 0 hlpi, List.getD_eq_getElem _ 0 hlpj]
  simp only [List.getElem_map]
  show (npUnique (agglomRestricted (ccInit constraintMat) N children)).countP
      (fun y => decide (y < (agglomRestricted (ccInit constraintMat) N
        children)[pi])) ≠
    (npUnique (agglomRestricted (ccInit constraintMat) N children)).countP
      (fun y => decide (y < (agglomRestricted (ccInit constraintMat) N
        children)[pj]))
  have hbi : pi < (agglomRestricted (ccInit constraintMat) N children).length := by
    simpa [hrlen] using hpi
  have hbj : pj < (agglomRestricted (ccInit constraintMat) N children).length := by
    simpa [hrlen] using hpj
  have hri : (agglomRestricted (ccInit constraintMat) N children)[pi] =
      ((linkage_to_merges N children).foldl
        (agglomStep (ccInit constraintMat)) (fun x => x)) i := by
    unfold agglomRestricted
    simp only [List.getElem_map]
    rw [hsi]
  have hrj : (agglomRestricted (ccInit constraintMat) N children)[pj] =
      ((linkage_to_merges N children).foldl
        (agglomStep (ccInit constraintMat)) (fun x => x)) j := by
    unfold agglomRestricted
    simp only [List.getElem_map]
    rw [hsj]
  rw [hri, hrj]
  refine ttcn_inj_on (agglomRestricted (ccInit constraintMat) N children) _ _
    ?_ ?_ hlabel_ne
  · unfold agglomRestricted
    simp only [List.mem_map]
    exact ⟨i, himem, rfl⟩
  · unfold agglomRestricted
    simp only [List.mem_map]
    exact ⟨j, hjmem, rfl⟩

/-- Witness for C1_agglomeration_respects_CL: two samples, one CL row, one
dendrogram merge that the CL gate rejects; the labels stay apart. -/
theorem C1_agglomeration_respects_CL_witness :
    (agglomerate_constrained_samples (ccInit [(0, 1, 0)]) 2 [(0, 1)]).getD 0 0 ≠
      (agglomerate_constrained_samples (ccInit [(0, 1, 0)]) 2 [(0, 1)]).getD 1 0 :=
  C1_agglomeration_respects_CL [(0, 1, 0)] 2 [(0, 1)] 0 1 0 1 (by decide)
    (by decide) (by decide) (by decide) (by decide) (by decide) (by decide)
    (by decide) (by decide)
